import Mathlib

/-!
# Refboard: card transform & drag-interaction engine

Shallow embedding of `src/src/lib.rs` (a yew component managing a list of
image cards that can be moved, resized, rotated, with z-order raising).

Modelling conventions:
* Rust `i32` fields (`position`, `size`, `z`) become `Int`; the arithmetic the
  program performs on them (addition, subtraction, `cmp::max`, truncated
  division by 2) stays within ranges where two's-complement overflow cannot
  occur in the scenarios considered, so plain `Int` arithmetic is used.
* Rust `f64` rotation values become `ℝ`, and `f64::atan2` becomes the
  mathematical two-argument arctangent `atan2` defined below.
* `Vec` indexing `self.cards[idx]` panics when out of range; `Model.update`
  therefore returns `Option (Model × Bool)`, where `none` models a panic and
  `some (m, b)` is the mutated model together with the `ShouldRender` result.
-/

namespace Refboard

open Real

/-- `const HANDLE_RADIUS_PX: i32 = 5;` -/
def HANDLE_RADIUS_PX : Int := 5

/-- `const MIN_CARD_SIZE_PX: i32 = 2 * HANDLE_RADIUS_PX + 1;` -/
def MIN_CARD_SIZE_PX : Int := 2 * HANDLE_RADIUS_PX + 1

/-- A Card is a transformable image displayed on the Refboard canvas.
Field for field the Rust struct `Card`. -/
structure Card where
  image : String
  position : Int × Int
  size : Int × Int
  rotation : ℝ
  z : Int

/-- The two-argument arctangent, embedding `f64::atan2(self = y, other = x)`:
the angle of the point `(x, y)`, in `(-π, π]`. Case split on the sign of `x`
as in the usual mathematical definition of `atan2`. -/
noncomputable def atan2 (y x : ℝ) : ℝ :=
  if 0 < x then arctan (y / x)
  else if x < 0 then
    (if 0 ≤ y then arctan (y / x) + π else arctan (y / x) - π)
  else
    (if 0 < y then π / 2 else if y < 0 then -(π / 2) else 0)

/-- `Card::rotation_handle_angle`: `(height as f64).atan2(width as f64)`. -/
noncomputable def Card.rotation_handle_angle (c : Card) : ℝ :=
  atan2 (c.size.2 : ℝ) (c.size.1 : ℝ)

/-- A DragState represents an action controlled by holding down the left
mouse button and moving the mouse. -/
inductive DragState where
  | None
  | MoveCard (idx : Nat)
  | MoveScaleHandle (idx : Nat)
  | MoveRotateHandle (idx : Nat)

/-- A Msg (Message) is a signal sent to the Model requesting a controlled
state change. -/
inductive Msg where
  | CreateCard (image : String) (position : Int × Int)
  | RemoveCard (id : Nat)
  | ResetRotation (idx : Nat)
  | StartDraggingScaleHandle (idx : Nat)
  | StartDraggingRotateHandle (idx : Nat)
  | StartDraggingCard (idx : Nat)
  | Drag (delta : Int × Int) (pos : Int × Int)
  | StopDragging

/-- A Model represents the state of the webapp. -/
structure Model where
  cards : List Card
  drag_state : DragState

/-- `Component::create`: the initial model, two 300×300 cards at z 0 and 1. -/
def Model.create : Model :=
  { cards := [
      { image := "", position := (0, 0), size := (300, 300), rotation := 0, z := 0 },
      { image := "", position := (400, 0), size := (300, 300), rotation := 0, z := 1 }],
    drag_state := DragState.None }

/-- `Component::update`, message by message. `none` models the panic of an
out-of-range `self.cards[idx]` access; otherwise the result pairs the new
model with the `ShouldRender` boolean the Rust function returns. In
`StartDraggingCard`, the final in-place `self.cards[idx].z = …` assignment is
rendered as `List.set` of the original card with its `z` replaced (the loop
before it only ever changes the `z` field, so the card sitting at `idx` at
that point is the original card with some `z`). `CreateCard` and `RemoveCard`
fall through the Rust wildcard arm `_ => true`: no state change. -/
noncomputable def Model.update (m : Model) (msg : Msg) : Option (Model × Bool) :=
  match msg with
  | Msg.StartDraggingCard idx =>
    if h : idx < m.cards.length then
      let selected_card_z := (m.cards.get ⟨idx, h⟩).z
      let lowered := m.cards.map fun c =>
        if selected_card_z ≤ c.z then { c with z := c.z - 1 } else c
      let raised := lowered.set idx
        { m.cards.get ⟨idx, h⟩ with z := ((m.cards.length - 1 : Nat) : Int) }
      some ({ cards := raised, drag_state := DragState.MoveCard idx }, true)
    else none
  | Msg.StartDraggingScaleHandle idx =>
    some ({ m with drag_state := DragState.MoveScaleHandle idx }, true)
  | Msg.StartDraggingRotateHandle idx =>
    some ({ m with drag_state := DragState.MoveRotateHandle idx }, true)
  | Msg.ResetRotation idx =>
    if h : idx < m.cards.length then
      some ({ m with
        cards := m.cards.set idx { m.cards.get ⟨idx, h⟩ with rotation := 0 } }, true)
    else none
  | Msg.Drag delta pos =>
    match m.drag_state with
    | DragState.MoveCard idx =>
      if h : idx < m.cards.length then
        let card := m.cards.get ⟨idx, h⟩
        let moved := { card with
          position := (card.position.1 + delta.1, card.position.2 + delta.2) }
        some ({ m with cards := m.cards.set idx moved }, true)
      else none
    | DragState.MoveScaleHandle idx =>
      if h : idx < m.cards.length then
        let card := m.cards.get ⟨idx, h⟩
        let scaled := { card with
          size := (max MIN_CARD_SIZE_PX (card.size.1 + delta.1),
                   max MIN_CARD_SIZE_PX (card.size.2 + delta.2)) }
        some ({ m with cards := m.cards.set idx scaled }, true)
      else none
    | DragState.MoveRotateHandle idx =>
      if h : idx < m.cards.length then
        let card := m.cards.get ⟨idx, h⟩
        let atan_x : ℝ := ((pos.1 - (card.position.1 + Int.tdiv card.size.1 2) : Int) : ℝ)
        let atan_y : ℝ := ((pos.2 - (card.position.2 + Int.tdiv card.size.2 2) : Int) : ℝ)
        let rotated := { card with
          rotation := atan2 atan_y atan_x + card.rotation_handle_angle }
        some ({ m with cards := m.cards.set idx rotated }, true)
      else none
    | DragState.None => some (m, false)
  | Msg.StopDragging =>
    some ({ m with drag_state := DragState.None }, true)
  | Msg.CreateCard _ _ => some (m, true)
  | Msg.RemoveCard _ => some (m, true)

/-- Modelled from the spec: the Card Store operation
`create(image, position) -> CardId`. The repository's `Msg::CreateCard`
message is declared in `src/src/lib.rs` but its handler is not present there
(the message falls through the wildcard `update` arm), so the appending
behaviour is taken from the spec: append a card with a fixed default starting
size (the 300×300 used by every card the source builds), `rotation = 0` and
`z = currentCount`; the operation is total (never fails). -/
def Model.createCard (m : Model) (image : String) (position : Int × Int) : Model :=
  { m with cards := m.cards ++ [
      { image := image, position := position, size := (300, 300), rotation := 0,
        z := (m.cards.length : Int) }] }

/-- Observable: the list of z values of the cards, in storage order. -/
def Model.zs (m : Model) : List Int := m.cards.map Card.z

/-- The list `[0, 1, …, n-1]` as integers. -/
def intRange (n : Nat) : List Int := (List.range n).map Int.ofNat

/-- The Card Store invariant: the z values are a permutation of `0..N-1`. -/
def Model.zPerm (m : Model) : Prop := m.zs.Perm (intRange m.cards.length)

instance (m : Model) : Decidable m.zPerm :=
  inferInstanceAs (Decidable (m.zs.Perm (intRange m.cards.length)))

/-- A z-order relevant Card Store operation: `create` or `raiseToFront`. -/
inductive ZOp where
  | create (image : String) (position : Int × Int)
  | raise (idx : Nat)

/-- Apply one z-order operation; a raise with an out-of-range index panics. -/
noncomputable def applyZOp (m : Model) : ZOp → Option Model
  | ZOp.create image position => some (m.createCard image position)
  | ZOp.raise idx => (m.update (Msg.StartDraggingCard idx)).map Prod.fst

/-- Apply a sequence of z-order operations, stopping at the first panic. -/
noncomputable def applyZOps (m : Model) : List ZOp → Option Model
  | [] => some m
  | op :: ops => match applyZOp m op with
    | some m' => applyZOps m' ops
    | none => none

/-! ## Helper lemmas about `atan2` -/

theorem atan2_of_pos {y x : ℝ} (hx : 0 < x) : atan2 y x = arctan (y / x) := by
  simp [atan2, hx]

theorem atan2_zero_of_pos {x : ℝ} (hx : 0 < x) : atan2 0 x = 0 := by
  rw [atan2_of_pos hx, zero_div, arctan_zero]

theorem atan2_diag {x : ℝ} (hx : 0 < x) : atan2 x x = π / 4 := by
  rw [atan2_of_pos hx, div_self hx.ne', arctan_one]

theorem arctan_pos_of_pos {x : ℝ} (hx : 0 < x) : 0 < arctan x := by
  have := arctan_strictMono hx
  rwa [arctan_zero] at this

theorem arctan_nonpos_of_nonpos {x : ℝ} (hx : x ≤ 0) : arctan x ≤ 0 := by
  have := arctan_strictMono.monotone hx
  rwa [arctan_zero] at this

theorem neg_pi_lt_atan2 (y x : ℝ) : -π < atan2 y x := by
  have hpi := pi_pos
  have h1 := arctan_lt_pi_div_two (y / x)
  have h2 := neg_pi_div_two_lt_arctan (y / x)
  unfold atan2
  split_ifs with hx hx2 hy hy1 hy2
  · linarith
  · linarith
  · have hq : 0 < y / x := div_pos_of_neg_of_neg (by linarith) hx2
    have := arctan_pos_of_pos hq
    linarith
  · linarith
  · linarith
  · linarith

theorem atan2_le_pi (y x : ℝ) : atan2 y x ≤ π := by
  have hpi := pi_pos
  have h1 := arctan_lt_pi_div_two (y / x)
  have h2 := neg_pi_div_two_lt_arctan (y / x)
  unfold atan2
  split_ifs with hx hx2 hy hy1 hy2
  · linarith
  · have hq : y / x ≤ 0 := div_nonpos_of_nonneg_of_nonpos hy hx2.le
    have := arctan_nonpos_of_nonpos hq
    linarith
  · linarith
  · linarith
  · linarith
  · linarith

theorem atan2_pos_of_pos {y x : ℝ} (hy : 0 < y) (hx : 0 < x) : 0 < atan2 y x := by
  rw [atan2_of_pos hx]
  exact arctan_pos_of_pos (div_pos hy hx)

theorem atan2_lt_half_pi_of_pos {y x : ℝ} (hx : 0 < x) : atan2 y x < π / 2 := by
  rw [atan2_of_pos hx]
  exact arctan_lt_pi_div_two _

/-! ## Helper lemmas about `intRange`, `zs` and `zPerm` -/

theorem length_intRange (n : Nat) : (intRange n).length = n := by
  unfold intRange
  rw [List.length_map, List.length_range]

theorem nodup_intRange (n : Nat) : (intRange n).Nodup :=
  (List.nodup_range n).map (fun _ _ h => Int.ofNat.inj h)

theorem mem_intRange {n : Nat} {t : Int} : t ∈ intRange n ↔ 0 ≤ t ∧ t < (n : Int) := by
  simp only [intRange, List.mem_map, List.mem_range, Int.ofNat_eq_coe]
  constructor
  · rintro ⟨i, hi, rfl⟩
    omega
  · rintro ⟨h0, hn⟩
    exact ⟨t.toNat, by omega, by omega⟩

theorem intRange_succ (n : Nat) : intRange (n + 1) = intRange n ++ [(n : Int)] := by
  simp [intRange, List.range_succ]

theorem length_zs (m : Model) : m.zs.length = m.cards.length := by
  simp [Model.zs]

theorem zPerm_nodup {m : Model} (hp : m.zPerm) : m.zs.Nodup :=
  hp.nodup_iff.mpr (nodup_intRange _)

theorem zPerm_mem {m : Model} (hp : m.zPerm) {t : Int} :
    t ∈ m.zs ↔ 0 ≤ t ∧ t < (m.cards.length : Int) := by
  rw [hp.mem_iff, mem_intRange]

/-! ## Characterization of `StartDraggingCard` (raise to front) -/

/-- The card list produced by `Msg::StartDraggingCard` on index `idx`:
first every card with `z >= selected z` has its `z` decremented, then the
selected slot gets `z = len - 1`. -/
def raiseCards (cards : List Card) (idx : Nat) (h : idx < cards.length) : List Card :=
  (cards.map fun c =>
      if (cards.get ⟨idx, h⟩).z ≤ c.z then { c with z := c.z - 1 } else c).set idx
    { cards.get ⟨idx, h⟩ with z := ((cards.length - 1 : Nat) : Int) }

theorem length_raiseCards (cards : List Card) (idx : Nat) (h : idx < cards.length) :
    (raiseCards cards idx h).length = cards.length := by
  unfold raiseCards
  rw [List.length_set, List.length_map]

theorem raiseCards_get (cards : List Card) (idx : Nat) (h : idx < cards.length)
    (j : Nat) (hj : j < cards.length) (hj2 : j < (raiseCards cards idx h).length) :
    (raiseCards cards idx h).get ⟨j, hj2⟩ =
      if j = idx then
        { cards.get ⟨idx, h⟩ with z := ((cards.length - 1 : Nat) : Int) }
      else if (cards.get ⟨idx, h⟩).z ≤ (cards.get ⟨j, hj⟩).z then
        { cards.get ⟨j, hj⟩ with z := (cards.get ⟨j, hj⟩).z - 1 }
      else cards.get ⟨j, hj⟩ := by
  simp only [List.get_eq_getElem, raiseCards, List.getElem_set, List.getElem_map]
  rcases eq_or_ne j idx with he | he
  · simp [he]
  · simp [he, Ne.symm he]

/-- Unfolding `Model.update` on `StartDraggingCard` when the index is valid. -/
theorem update_start_of_lt (m : Model) (idx : Nat) (h : idx < m.cards.length) :
    m.update (Msg.StartDraggingCard idx) =
      some ({ cards := raiseCards m.cards idx h,
              drag_state := DragState.MoveCard idx }, true) := by
  simp [Model.update, h, raiseCards]

/-- Unfolding `Model.update` on `StartDraggingCard` when the index is out of
range: the `self.cards[idx]` access panics. -/
theorem update_start_of_ge (m : Model) (idx : Nat) (h : ¬ idx < m.cards.length) :
    m.update (Msg.StartDraggingCard idx) = none := by
  simp [Model.update, h]

theorem start_spec {m : Model} {idx : Nat} {m' : Model} {b : Bool}
    (hu : m.update (Msg.StartDraggingCard idx) = some (m', b)) :
    ∃ h : idx < m.cards.length,
      b = true ∧ m'.drag_state = DragState.MoveCard idx ∧
      m'.cards = raiseCards m.cards idx h := by
  by_cases h : idx < m.cards.length
  · rw [update_start_of_lt m idx h] at hu
    refine ⟨h, ?_⟩
    obtain ⟨h1, h2⟩ := Prod.mk.injEq .. ▸ Option.some.inj hu
    subst h1
    exact ⟨h2.symm, rfl, rfl⟩
  · rw [update_start_of_ge m idx h] at hu
    exact absurd hu (by simp)

/-- The permutation of z values a raise performs, as a function on `Int`:
the selected value `sel` jumps to `n - 1`, values above `sel` shift down by
one, values below stay. -/
def raiseFun (sel : Int) (n : Nat) (t : Int) : Int :=
  if t = sel then ((n - 1 : Nat) : Int) else if sel ≤ t then t - 1 else t

theorem raise_zs_map {m : Model} {idx : Nat} {m' : Model} {b : Bool}
    (h : idx < m.cards.length) (hnd : m.zs.Nodup)
    (hu : m.update (Msg.StartDraggingCard idx) = some (m', b)) :
    m'.zs = m.zs.map (raiseFun (m.cards.get ⟨idx, h⟩).z m.cards.length) := by
  obtain ⟨h2, -, -, hc⟩ := start_spec hu
  have hzlen : m'.zs.length = m.cards.length := by
    rw [length_zs, hc, length_raiseCards]
  apply List.ext_getElem
  · rw [hzlen, List.length_map, length_zs]
  intro j hj1 hj2
  have hjc : j < m.cards.length := by rwa [hzlen] at hj1
  have hjr : j < (raiseCards m.cards idx h2).length := by
    rwa [length_raiseCards]
  have hjz : j < m.zs.length := by rwa [length_zs]
  have hL : m'.zs[j] = ((raiseCards m.cards idx h2).get ⟨j, hjr⟩).z := by
    simp only [Model.zs, hc, List.getElem_map, List.get_eq_getElem]
  have hR : (m.zs.map (raiseFun (m.cards.get ⟨idx, h⟩).z m.cards.length))[j] =
      raiseFun (m.cards.get ⟨idx, h⟩).z m.cards.length (m.cards.get ⟨j, hjc⟩).z := by
    simp only [Model.zs, List.getElem_map, List.get_eq_getElem]
  rw [hL, hR, raiseCards_get m.cards idx h2 j hjc hjr]
  rcases eq_or_ne j idx with he | he
  · subst he
    simp [raiseFun]
  · have hiz : idx < m.zs.length := by rw [length_zs]; exact h
    have hzne : (m.cards.get ⟨j, hjc⟩).z ≠ (m.cards.get ⟨idx, h⟩).z := by
      intro hcontra
      have e12 : m.zs.get ⟨j, hjz⟩ = m.zs.get ⟨idx, hiz⟩ := by
        simp only [List.get_eq_getElem] at hcontra
        simp only [Model.zs, List.get_eq_getElem, List.getElem_map]
        exact hcontra
      have := hnd.get_inj_iff.mp e12
      simp only [Fin.mk.injEq] at this
      exact he this
    simp only [if_neg he, raiseFun, if_neg hzne]
    split_ifs <;> rfl

theorem raiseFun_perm (n : Nat) (sel : Int) (h0 : 0 ≤ sel) (hn : sel < (n : Int)) :
    ((intRange n).map (raiseFun sel n)).Perm (intRange n) := by
  have hnd2 := nodup_intRange n
  have hnd1 : ((intRange n).map (raiseFun sel n)).Nodup := by
    refine hnd2.map_on ?_
    intro x hx y hy hxy
    rw [mem_intRange] at hx hy
    unfold raiseFun at hxy
    split_ifs at hxy <;> omega
  refine (List.perm_ext_iff_of_nodup hnd1 hnd2).mpr ?_
  intro a
  constructor
  · intro ha
    obtain ⟨t, ht, rfl⟩ := List.mem_map.mp ha
    rw [mem_intRange] at ht ⊢
    unfold raiseFun
    split_ifs <;> omega
  · intro ha
    rw [mem_intRange] at ha
    apply List.mem_map.mpr
    by_cases he : a = ((n - 1 : Nat) : Int)
    · refine ⟨sel, mem_intRange.mpr ⟨h0, hn⟩, ?_⟩
      rw [raiseFun, if_pos rfl, he]
    · by_cases hle : sel ≤ a
      · refine ⟨a + 1, mem_intRange.mpr (by omega), ?_⟩
        unfold raiseFun
        split_ifs <;> omega
      · refine ⟨a, mem_intRange.mpr (by omega), ?_⟩
        unfold raiseFun
        split_ifs <;> omega

/-- The selected card's z value is one of the store's z values. -/
theorem sel_mem_zs (m : Model) (idx : Nat) (h : idx < m.cards.length) :
    (m.cards.get ⟨idx, h⟩).z ∈ m.zs := by
  apply List.mem_map_of_mem Card.z
  simp only [List.get_eq_getElem]
  exact List.getElem_mem h

/-- Raising preserves the dense z-permutation invariant. -/
theorem raise_preserves_zPerm {m : Model} {idx : Nat} {m' : Model} {b : Bool}
    (hp : m.zPerm) (hu : m.update (Msg.StartDraggingCard idx) = some (m', b)) :
    m'.zPerm ∧ m'.cards.length = m.cards.length := by
  obtain ⟨h, -, -, hc⟩ := start_spec hu
  have hnd := zPerm_nodup hp
  have hlen : m'.cards.length = m.cards.length := by
    rw [hc, length_raiseCards]
  have hsel := (zPerm_mem hp).mp (sel_mem_zs m idx h)
  refine ⟨?_, hlen⟩
  unfold Model.zPerm
  rw [hlen, raise_zs_map h hnd hu]
  exact (hp.map _).trans (raiseFun_perm m.cards.length _ hsel.1 hsel.2)

/-! ## `create` (spec-modelled) and sequences of z-order operations -/

theorem createCard_zs (m : Model) (image : String) (position : Int × Int) :
    (m.createCard image position).zs = m.zs ++ [(m.cards.length : Int)] := by
  simp [Model.createCard, Model.zs]

theorem createCard_length (m : Model) (image : String) (position : Int × Int) :
    (m.createCard image position).cards.length = m.cards.length + 1 := by
  simp [Model.createCard]

theorem createCard_preserves_zPerm {m : Model} (hp : m.zPerm)
    (image : String) (position : Int × Int) :
    (m.createCard image position).zPerm := by
  unfold Model.zPerm
  rw [createCard_zs, createCard_length, intRange_succ]
  exact hp.append_right _

theorem applyZOps_preserves_zPerm {ops : List ZOp} {m m' : Model}
    (hp : m.zPerm) (hm' : applyZOps m ops = some m') : m'.zPerm := by
  induction ops generalizing m with
  | nil =>
    simp only [applyZOps, Option.some.injEq] at hm'
    exact hm' ▸ hp
  | cons op ops ih =>
    cases op with
    | create image position =>
      simp only [applyZOps, applyZOp] at hm'
      exact ih (createCard_preserves_zPerm hp image position) hm'
    | raise idx =>
      rcases hu : m.update (Msg.StartDraggingCard idx) with - | p
      · simp [applyZOps, applyZOp, hu] at hm'
      · obtain ⟨m1, b⟩ := p
        have hstep := (raise_preserves_zPerm hp hu).1
        simp only [applyZOps, applyZOp, hu, Option.map_some] at hm'
        exact ih hstep hm'

/-! ## Unfolding lemmas for the remaining `update` branches -/

/-- The card produced by the `MoveCard` drag branch. -/
def movedCard (c : Card) (delta : Int × Int) : Card :=
  { c with position := (c.position.1 + delta.1, c.position.2 + delta.2) }

/-- The card produced by the `MoveScaleHandle` drag branch. -/
def scaledCard (c : Card) (delta : Int × Int) : Card :=
  { c with size := (max MIN_CARD_SIZE_PX (c.size.1 + delta.1),
                    max MIN_CARD_SIZE_PX (c.size.2 + delta.2)) }

/-- The card produced by the `MoveRotateHandle` drag branch. -/
noncomputable def rotatedCard (c : Card) (pos : Int × Int) : Card :=
  { c with rotation :=
      atan2 ((pos.2 - (c.position.2 + Int.tdiv c.size.2 2) : Int) : ℝ)
            ((pos.1 - (c.position.1 + Int.tdiv c.size.1 2) : Int) : ℝ)
        + c.rotation_handle_angle }

/-- The card produced by `ResetRotation`. -/
def resetCard (c : Card) : Card := { c with rotation := 0 }

theorem update_drag_move_of_lt (m : Model) {idx : Nat}
    (hds : m.drag_state = DragState.MoveCard idx) (h : idx < m.cards.length)
    (delta pos : Int × Int) :
    m.update (Msg.Drag delta pos) =
      some ({ m with cards := m.cards.set idx (movedCard (m.cards.get ⟨idx, h⟩) delta) },
        true) := by
  simp [Model.update, hds, h, movedCard]

theorem update_drag_move_of_ge (m : Model) {idx : Nat}
    (hds : m.drag_state = DragState.MoveCard idx) (h : ¬ idx < m.cards.length)
    (delta pos : Int × Int) :
    m.update (Msg.Drag delta pos) = none := by
  simp [Model.update, hds, h]

theorem update_drag_scale_of_lt (m : Model) {idx : Nat}
    (hds : m.drag_state = DragState.MoveScaleHandle idx) (h : idx < m.cards.length)
    (delta pos : Int × Int) :
    m.update (Msg.Drag delta pos) =
      some ({ m with cards := m.cards.set idx (scaledCard (m.cards.get ⟨idx, h⟩) delta) },
        true) := by
  simp [Model.update, hds, h, scaledCard]

theorem update_drag_scale_of_ge (m : Model) {idx : Nat}
    (hds : m.drag_state = DragState.MoveScaleHandle idx) (h : ¬ idx < m.cards.length)
    (delta pos : Int × Int) :
    m.update (Msg.Drag delta pos) = none := by
  simp [Model.update, hds, h]

theorem update_drag_rotate_of_lt (m : Model) {idx : Nat}
    (hds : m.drag_state = DragState.MoveRotateHandle idx) (h : idx < m.cards.length)
    (delta pos : Int × Int) :
    m.update (Msg.Drag delta pos) =
      some ({ m with cards := m.cards.set idx (rotatedCard (m.cards.get ⟨idx, h⟩) pos) },
        true) := by
  simp [Model.update, hds, h, rotatedCard]

theorem update_drag_rotate_of_ge (m : Model) {idx : Nat}
    (hds : m.drag_state = DragState.MoveRotateHandle idx) (h : ¬ idx < m.cards.length)
    (delta pos : Int × Int) :
    m.update (Msg.Drag delta pos) = none := by
  simp [Model.update, hds, h]

theorem update_reset_of_lt (m : Model) {idx : Nat} (h : idx < m.cards.length) :
    m.update (Msg.ResetRotation idx) =
      some ({ m with cards := m.cards.set idx (resetCard (m.cards.get ⟨idx, h⟩)) },
        true) := by
  simp [Model.update, h, resetCard]

theorem update_reset_of_ge (m : Model) {idx : Nat} (h : ¬ idx < m.cards.length) :
    m.update (Msg.ResetRotation idx) = none := by
  simp [Model.update, h]

/-! ## Distinctness and bounds of z values -/

theorem z_ne_of_ne {m : Model} (hnd : m.zs.Nodup) {j idx : Nat}
    (hjc : j < m.cards.length) (h : idx < m.cards.length) (he : j ≠ idx) :
    (m.cards.get ⟨j, hjc⟩).z ≠ (m.cards.get ⟨idx, h⟩).z := by
  intro hcontra
  have hjz : j < m.zs.length := by rw [length_zs]; exact hjc
  have hiz : idx < m.zs.length := by rw [length_zs]; exact h
  have e12 : m.zs.get ⟨j, hjz⟩ = m.zs.get ⟨idx, hiz⟩ := by
    simp only [List.get_eq_getElem] at hcontra
    simp only [Model.zs, List.get_eq_getElem, List.getElem_map]
    exact hcontra
  have := hnd.get_inj_iff.mp e12
  simp only [Fin.mk.injEq] at this
  exact he this

theorem z_bounds {m : Model} (hp : m.zPerm) {j : Nat} (hjc : j < m.cards.length) :
    0 ≤ (m.cards.get ⟨j, hjc⟩).z ∧ (m.cards.get ⟨j, hjc⟩).z < (m.cards.length : Int) :=
  (zPerm_mem hp).mp (sel_mem_zs m j hjc)

/-- Raising the card already at the top (`z = N - 1`) does not change the
card list at all. -/
theorem raiseCards_eq_self {m : Model} {idx : Nat} (h : idx < m.cards.length)
    (hp : m.zPerm)
    (htop : (m.cards.get ⟨idx, h⟩).z = (m.cards.length : Int) - 1) :
    raiseCards m.cards idx h = m.cards := by
  have hnd := zPerm_nodup hp
  apply List.ext_getElem (by rw [length_raiseCards])
  intro j hj1 hj2
  have hjc : j < m.cards.length := hj2
  have hcast : ((m.cards.length - 1 : Nat) : Int) = (m.cards.length : Int) - 1 := by
    omega
  have hget := raiseCards_get m.cards idx h j hjc hj1
  simp only [List.get_eq_getElem] at hget
  rw [hget]
  rcases eq_or_ne j idx with he | he
  · subst he
    rw [if_pos rfl, hcast, ← htop]
    simp only [List.get_eq_getElem]
  · have hzne := z_ne_of_ne hnd hjc h he
    have hzb := (z_bounds hp hjc).2
    simp only [List.get_eq_getElem] at hzne hzb htop
    have hnle : ¬ m.cards[idx].z ≤ m.cards[j].z := by omega
    rw [if_neg he, if_neg hnle]

/-! ## Claim theorems -/

/-- C1: for every card store whose z values form a permutation of
`{0..N-1}` (`N ≥ 1`), after any sequence of `create` and `raiseToFront`
(`StartDraggingCard`) operations that runs to completion, the multiset of z
values across all cards is again exactly `{0, …, N-1}` for the then-current
card count `N`, each value occurring exactly once. -/
theorem c1_z_invariant_preserved {m : Model} (_hn : 1 ≤ m.cards.length)
    (hp : m.zPerm) {ops : List ZOp} {m' : Model}
    (hm' : applyZOps m ops = some m') : m'.zPerm :=
  applyZOps_preserves_zPerm hp hm'

/-- Witness for C1: the initial two-card store, one create and one raise. -/
theorem c1_z_invariant_preserved_witness :
    1 ≤ Model.create.cards.length ∧ Model.create.zPerm ∧
    ∃ m', applyZOps Model.create [ZOp.create "x" (1, 2), ZOp.raise 0] = some m' ∧
      m'.zPerm := by
  refine ⟨by decide, by decide, ?_⟩
  refine ⟨Model.mk [Card.mk "" (0, 0) (300, 300) 0 2,
    Card.mk "" (400, 0) (300, 300) 0 0,
    Card.mk "x" (1, 2) (300, 300) 0 1] (DragState.MoveCard 0), rfl, ?_⟩
  exact @c1_z_invariant_preserved Model.create (by decide) (by decide)
    [ZOp.create "x" (1, 2), ZOp.raise 0] _ rfl

/-- C2: on a store of `N` cards whose z values are a permutation of
`{0..N-1}`, `raiseToFront` (`StartDraggingCard`) applied to the card at
`z = k` decrements by exactly 1 the z of every other card whose z was `≥ k`,
leaves every other card with `z < k` unchanged, and sets the target card's z
to `N - 1`. -/
theorem c2_raise_shifts {m : Model} {idx : Nat} (h : idx < m.cards.length)
    (_hp : m.zPerm) {k : Int} (hk : (m.cards.get ⟨idx, h⟩).z = k)
    {m' : Model} {b : Bool}
    (hu : m.update (Msg.StartDraggingCard idx) = some (m', b)) :
    (∀ j (hj : j < m.cards.length) (hj2 : j < m'.cards.length), j ≠ idx →
      (k ≤ (m.cards.get ⟨j, hj⟩).z →
        (m'.cards.get ⟨j, hj2⟩).z = (m.cards.get ⟨j, hj⟩).z - 1) ∧
      ((m.cards.get ⟨j, hj⟩).z < k →
        (m'.cards.get ⟨j, hj2⟩).z = (m.cards.get ⟨j, hj⟩).z)) ∧
    ∀ hi2 : idx < m'.cards.length,
      (m'.cards.get ⟨idx, hi2⟩).z = (m.cards.length : Int) - 1 := by
  obtain ⟨h2, -, -, hc⟩ := start_spec hu
  simp only [List.get_eq_getElem] at hk
  have hcast : ((m.cards.length - 1 : Nat) : Int) = (m.cards.length : Int) - 1 := by
    omega
  constructor
  · intro j hj hj2 hne
    have hjr : j < (raiseCards m.cards idx h2).length := by
      rw [length_raiseCards]; exact hj
    have hget := raiseCards_get m.cards idx h2 j hj hjr
    rw [if_neg hne] at hget
    simp only [List.get_eq_getElem] at hget ⊢
    simp only [hc, hget]
    constructor
    · intro hge
      rw [if_pos (by rw [hk]; exact hge)]
    · intro hlt
      rw [if_neg (by rw [hk]; omega)]
  · intro hi2
    have hjr : idx < (raiseCards m.cards idx h2).length := by
      rw [length_raiseCards]; exact h2
    have hget := raiseCards_get m.cards idx h2 idx h2 hjr
    rw [if_pos rfl] at hget
    simp only [List.get_eq_getElem] at hget ⊢
    simp only [hc, hget, hcast]

/-- Witness for C2: raising the bottom card (z = 0) of the initial store. -/
theorem c2_raise_shifts_witness :
    0 < Model.create.cards.length ∧ Model.create.zPerm ∧
    ∃ m', Model.create.update (Msg.StartDraggingCard 0) = some (m', true) ∧
      (∀ hj2 : 1 < m'.cards.length,
        (m'.cards.get ⟨1, hj2⟩).z = 0) ∧
      ∀ hi2 : 0 < m'.cards.length,
        (m'.cards.get ⟨0, hi2⟩).z = (Model.create.cards.length : Int) - 1 := by
  have h : 0 < Model.create.cards.length := by decide
  have hj : 1 < Model.create.cards.length := by decide
  have hu := update_start_of_lt Model.create 0 h
  have hcl := c2_raise_shifts h (by decide) rfl hu
  refine ⟨h, by decide, _, hu, ?_, hcl.2⟩
  intro hj2
  have hge : (0 : Int) ≤ (Model.create.cards.get ⟨1, hj⟩).z := of_decide_eq_true rfl
  have := (hcl.1 1 hj hj2 (by decide)).1 hge
  simpa using this

/-- C5: `create` (`CreateCard`) appends a new card with the fixed default
starting size, `rotation = 0` and `z` equal to the card count at creation
time, leaves the drag state alone, and never fails (it is a total
function). -/
theorem c5_create_appends (m : Model) (image : String) (position : Int × Int) :
    (m.createCard image position).cards =
      m.cards ++ [{ image := image, position := position, size := (300, 300),
                    rotation := 0, z := (m.cards.length : Int) }] ∧
    (m.createCard image position).cards.length = m.cards.length + 1 ∧
    (m.createCard image position).drag_state = m.drag_state := by
  refine ⟨rfl, ?_, rfl⟩
  simp [Model.createCard]

/-- C6: on a store whose z values are a permutation of `{0..N-1}`, raising
the card already at `z = N-1` leaves every card's z value unchanged, and
raising any card a second time returns exactly the state the first raise
produced (idempotence of `raiseToFront` per target). -/
theorem c6_raise_top_noop {m : Model} {idx : Nat} (h : idx < m.cards.length)
    (hp : m.zPerm) {m' : Model} {b : Bool}
    (hu : m.update (Msg.StartDraggingCard idx) = some (m', b)) :
    ((m.cards.get ⟨idx, h⟩).z = (m.cards.length : Int) - 1 → m'.zs = m.zs) ∧
    m'.update (Msg.StartDraggingCard idx) = some (m', true) := by
  obtain ⟨h2, hb, hd, hc⟩ := start_spec hu
  have hlen' : m'.cards.length = m.cards.length := by
    rw [hc, length_raiseCards]
  constructor
  · intro htop
    simp only [Model.zs, hc, raiseCards_eq_self h2 hp htop]
  · have h' : idx < m'.cards.length := by rw [hlen']; exact h2
    have hp' := (raise_preserves_zPerm hp hu).1
    have htop' : (m'.cards.get ⟨idx, h'⟩).z = (m'.cards.length : Int) - 1 := by
      have hjr : idx < (raiseCards m.cards idx h2).length := by
        rw [length_raiseCards]; exact h2
      have hget := raiseCards_get m.cards idx h2 idx h2 hjr
      rw [if_pos rfl] at hget
      simp only [List.get_eq_getElem] at hget ⊢
      simp only [hc, hget, length_raiseCards]
      omega
    rw [update_start_of_lt m' idx h', raiseCards_eq_self h' hp' htop']
    have hm : ({ cards := m'.cards, drag_state := DragState.MoveCard idx } : Model)
        = m' := by
      rw [← hd]
    rw [hm]

/-- Witness for C6: raising the top card (z = 1) of the initial store. -/
theorem c6_raise_top_noop_witness :
    1 < Model.create.cards.length ∧ Model.create.zPerm ∧
    ∃ m' b, Model.create.update (Msg.StartDraggingCard 1) = some (m', b) ∧
      m'.zs = Model.create.zs ∧
      m'.update (Msg.StartDraggingCard 1) = some (m', true) := by
  have h : 1 < Model.create.cards.length := by decide
  have hu := update_start_of_lt Model.create 1 h
  have hcl := c6_raise_top_noop h (by decide) hu
  exact ⟨h, by decide, _, true, hu, hcl.1 (of_decide_eq_true rfl), hcl.2⟩

/-- C3: in the `MoveScaleHandle` drag state, a resize `Drag` clamps each
axis independently: the new width is `max (MIN_CARD_SIZE_PX) (w + dx)` and
the new height is `max (MIN_CARD_SIZE_PX) (h + dy)`, so neither dimension
ever falls below `MIN_CARD_SIZE_PX = 2 * HANDLE_RADIUS_PX + 1 = 11`, no
matter how negative the delta is. -/
theorem c3_resize_clamps {m : Model} {idx : Nat}
    (hds : m.drag_state = DragState.MoveScaleHandle idx)
    (h : idx < m.cards.length) (delta pos : Int × Int) :
    MIN_CARD_SIZE_PX = 2 * HANDLE_RADIUS_PX + 1 ∧ MIN_CARD_SIZE_PX = 11 ∧
    ∃ m', m.update (Msg.Drag delta pos) = some (m', true) ∧
      ∀ hi : idx < m'.cards.length,
        (m'.cards.get ⟨idx, hi⟩).size =
          (max MIN_CARD_SIZE_PX ((m.cards.get ⟨idx, h⟩).size.1 + delta.1),
           max MIN_CARD_SIZE_PX ((m.cards.get ⟨idx, h⟩).size.2 + delta.2)) ∧
        MIN_CARD_SIZE_PX ≤ (m'.cards.get ⟨idx, hi⟩).size.1 ∧
        MIN_CARD_SIZE_PX ≤ (m'.cards.get ⟨idx, hi⟩).size.2 := by
  refine ⟨rfl, rfl, _, update_drag_scale_of_lt m hds h delta pos, ?_⟩
  intro hi
  have hget : (({ m with
        cards := m.cards.set idx (scaledCard (m.cards.get ⟨idx, h⟩) delta) } :
      Model).cards.get ⟨idx, hi⟩) = scaledCard (m.cards.get ⟨idx, h⟩) delta := by
    simp [List.get_eq_getElem, List.getElem_set]
  rw [hget]
  exact ⟨rfl, le_max_left _ _, le_max_left _ _⟩

/-- Witness for C3: the scenario `delta = (-1000, -1000)` on a 300×300 card,
which clamps the size to `(11, 11)`. -/
theorem c3_resize_clamps_witness :
    0 < (Model.mk [Card.mk "" (0, 0) (300, 300) 0 0]
      (DragState.MoveScaleHandle 0)).cards.length ∧
    ∃ m', (Model.mk [Card.mk "" (0, 0) (300, 300) 0 0]
        (DragState.MoveScaleHandle 0)).update (Msg.Drag (-1000, -1000) (7, 7)) =
      some (m', true) ∧
      ∀ hi : 0 < m'.cards.length, (m'.cards.get ⟨0, hi⟩).size = (11, 11) := by
  obtain ⟨-, -, m', hu, hs⟩ := c3_resize_clamps
    (m := Model.mk [Card.mk "" (0, 0) (300, 300) 0 0] (DragState.MoveScaleHandle 0))
    rfl (by decide) (-1000, -1000) (7, 7)
  refine ⟨by decide, m', hu, fun hi => ?_⟩
  rw [(hs hi).1]
  decide

/-- C8: `ResetRotation` sets the addressed card's rotation to 0
unconditionally — whatever the prior rotation and whatever the current drag
state — leaves the drag state unchanged, and touches no other card. -/
theorem c8_reset_rotation {m : Model} {idx : Nat} (h : idx < m.cards.length) :
    ∃ m', m.update (Msg.ResetRotation idx) = some (m', true) ∧
      m'.drag_state = m.drag_state ∧
      m'.cards.length = m.cards.length ∧
      (∀ hi : idx < m'.cards.length, (m'.cards.get ⟨idx, hi⟩).rotation = 0) ∧
      ∀ j (hj : j < m.cards.length) (hj2 : j < m'.cards.length), j ≠ idx →
        m'.cards.get ⟨j, hj2⟩ = m.cards.get ⟨j, hj⟩ := by
  refine ⟨_, update_reset_of_lt m h, rfl, by simp, ?_, ?_⟩
  · intro hi
    simp [List.get_eq_getElem, List.getElem_set, resetCard]
  · intro j hj hj2 hne
    simp only [List.get_eq_getElem, List.getElem_set]
    rw [if_neg (Ne.symm hne)]

/-- Witness for C8: resetting a card with rotation 5 while a rotate drag is
in progress. -/
theorem c8_reset_rotation_witness :
    0 < (Model.mk [Card.mk "" (0, 0) (300, 300) 5 0]
      (DragState.MoveRotateHandle 0)).cards.length ∧
    ∃ m', (Model.mk [Card.mk "" (0, 0) (300, 300) 5 0]
        (DragState.MoveRotateHandle 0)).update (Msg.ResetRotation 0) =
      some (m', true) ∧
      m'.drag_state = DragState.MoveRotateHandle 0 ∧
      ∀ hi : 0 < m'.cards.length, (m'.cards.get ⟨0, hi⟩).rotation = 0 := by
  obtain ⟨m', hu, hd, -, hz, -⟩ := @c8_reset_rotation
    (Model.mk [Card.mk "" (0, 0) (300, 300) 5 0] (DragState.MoveRotateHandle 0))
    0 (by decide)
  exact ⟨by decide, m', hu, hd, hz⟩

/-- C9: every message that names a card index (`StartDraggingCard`,
`ResetRotation`, and `Drag` in the `MoveCard`, `MoveScaleHandle` or
`MoveRotateHandle` states) indexes the card vector without a bounds guard:
the operation succeeds exactly when the index is in range, and panics
(modelled by `none`) rather than acting as a no-op otherwise. -/
theorem c9_indexing_panics (m : Model) (idx : Nat) (delta pos : Int × Int) :
    ((m.update (Msg.StartDraggingCard idx)).isSome ↔ idx < m.cards.length) ∧
    ((m.update (Msg.ResetRotation idx)).isSome ↔ idx < m.cards.length) ∧
    (m.drag_state = DragState.MoveCard idx →
      ((m.update (Msg.Drag delta pos)).isSome ↔ idx < m.cards.length)) ∧
    (m.drag_state = DragState.MoveScaleHandle idx →
      ((m.update (Msg.Drag delta pos)).isSome ↔ idx < m.cards.length)) ∧
    (m.drag_state = DragState.MoveRotateHandle idx →
      ((m.update (Msg.Drag delta pos)).isSome ↔ idx < m.cards.length)) := by
  refine ⟨?_, ?_, fun hds => ?_, fun hds => ?_, fun hds => ?_⟩
  · by_cases h : idx < m.cards.length
    · rw [update_start_of_lt m idx h]; simp [h]
    · rw [update_start_of_ge m idx h]; simp [h]
  · by_cases h : idx < m.cards.length
    · rw [update_reset_of_lt m h]; simp [h]
    · rw [update_reset_of_ge m h]; simp [h]
  · by_cases h : idx < m.cards.length
    · rw [update_drag_move_of_lt m hds h delta pos]; simp [h]
    · rw [update_drag_move_of_ge m hds h delta pos]; simp [h]
  · by_cases h : idx < m.cards.length
    · rw [update_drag_scale_of_lt m hds h delta pos]; simp [h]
    · rw [update_drag_scale_of_ge m hds h delta pos]; simp [h]
  · by_cases h : idx < m.cards.length
    · rw [update_drag_rotate_of_lt m hds h delta pos]; simp [h]
    · rw [update_drag_rotate_of_ge m hds h delta pos]; simp [h]

/-- Witness for C9: in-range accesses succeed, out-of-range accesses
produce the panic value `none`, on concrete stores. -/
theorem c9_indexing_panics_witness :
    Model.create.update (Msg.StartDraggingCard 5) = none ∧
    (Model.create.update (Msg.StartDraggingCard 0)).isSome ∧
    Model.create.update (Msg.ResetRotation 5) = none ∧
    (Model.mk [Card.mk "" (0, 0) (300, 300) 0 0]
      (DragState.MoveCard 5)).update (Msg.Drag (1, 1) (2, 2)) = none := by
  have hcl5 := c9_indexing_panics Model.create 5 (0, 0) (0, 0)
  have hcl0 := c9_indexing_panics Model.create 0 (0, 0) (0, 0)
  have hclD := c9_indexing_panics
    (Model.mk [Card.mk "" (0, 0) (300, 300) 0 0] (DragState.MoveCard 5)) 5 (1, 1) (2, 2)
  refine ⟨?_, hcl0.1.mpr (by decide), ?_, ?_⟩
  · exact Option.not_isSome_iff_eq_none.mp (fun hs => by
      have := hcl5.1.mp hs
      exact absurd this (by decide))
  · exact Option.not_isSome_iff_eq_none.mp (fun hs => by
      have := hcl5.2.1.mp hs
      exact absurd this (by decide))
  · exact Option.not_isSome_iff_eq_none.mp (fun hs => by
      have := (hclD.2.2.1 rfl).mp hs
      simp at this)

/-- Bounds for an `atan2` value plus a handle angle with positive legs. -/
theorem rotation_sum_bounds {a b yh xw : ℝ} (hy : 0 < yh) (hx : 0 < xw) :
    -π < atan2 a b + atan2 yh xw ∧ atan2 a b + atan2 yh xw < 3 * π / 2 := by
  have h1 := neg_pi_lt_atan2 a b
  have h2 := atan2_le_pi a b
  have h3 := atan2_pos_of_pos hy hx
  have h4 := atan2_lt_half_pi_of_pos (y := yh) hx
  constructor <;> linarith

/-- C4: in the `MoveRotateHandle` drag state with absolute cursor
`(px, py)`, the card's rotation is set to
`atan2 (py - cy) (px - cx) + atan2 height width`, where
`(cx, cy) = (x + width / 2, y + height / 2)` with truncated integer
division, exactly as the source computes it. -/
theorem c4_rotate_formula {m : Model} {idx : Nat}
    (hds : m.drag_state = DragState.MoveRotateHandle idx)
    (h : idx < m.cards.length) (delta pos : Int × Int) :
    ∃ m', m.update (Msg.Drag delta pos) = some (m', true) ∧
      ∀ hi : idx < m'.cards.length,
        (m'.cards.get ⟨idx, hi⟩).rotation =
          atan2 ((pos.2 - ((m.cards.get ⟨idx, h⟩).position.2 +
              Int.tdiv (m.cards.get ⟨idx, h⟩).size.2 2) : Int) : ℝ)
            ((pos.1 - ((m.cards.get ⟨idx, h⟩).position.1 +
              Int.tdiv (m.cards.get ⟨idx, h⟩).size.1 2) : Int) : ℝ) +
          atan2 ((m.cards.get ⟨idx, h⟩).size.2 : ℝ)
            ((m.cards.get ⟨idx, h⟩).size.1 : ℝ) := by
  refine ⟨_, update_drag_rotate_of_lt m hds h delta pos, ?_⟩
  intro hi
  have hget : (({ m with
        cards := m.cards.set idx (rotatedCard (m.cards.get ⟨idx, h⟩) pos) } :
      Model).cards.get ⟨idx, hi⟩) = rotatedCard (m.cards.get ⟨idx, h⟩) pos := by
    simp [List.get_eq_getElem, List.getElem_set]
  rw [hget]
  rfl

/-- Witness for C4: the scenario of a card at `(0, 0)` of size 300×300 with
the cursor at `(450, 150)`; the resulting rotation is `π / 4`. -/
theorem c4_rotate_formula_witness :
    (Model.mk [Card.mk "" (0, 0) (300, 300) 7 0]
      (DragState.MoveRotateHandle 0)).drag_state = DragState.MoveRotateHandle 0 ∧
    0 < (Model.mk [Card.mk "" (0, 0) (300, 300) 7 0]
      (DragState.MoveRotateHandle 0)).cards.length ∧
    ∃ m', (Model.mk [Card.mk "" (0, 0) (300, 300) 7 0]
        (DragState.MoveRotateHandle 0)).update (Msg.Drag (0, 0) (450, 150)) =
      some (m', true) ∧
      ∀ hi : 0 < m'.cards.length, (m'.cards.get ⟨0, hi⟩).rotation = π / 4 := by
  obtain ⟨m', hu, hr⟩ := c4_rotate_formula
    (m := Model.mk [Card.mk "" (0, 0) (300, 300) 7 0] (DragState.MoveRotateHandle 0))
    rfl (by decide) (0, 0) (450, 150)
  refine ⟨rfl, by decide, m', hu, fun hi => ?_⟩
  rw [hr hi]
  show atan2 (((0 : Int) : ℝ)) (((300 : Int) : ℝ)) +
      atan2 (((300 : Int) : ℝ)) (((300 : Int) : ℝ)) = π / 4
  have h0 : ((0 : Int) : ℝ) = (0 : ℝ) := by norm_num
  have h300 : ((300 : Int) : ℝ) = (300 : ℝ) := by norm_num
  rw [h0, h300, atan2_zero_of_pos (by norm_num), atan2_diag (by norm_num), zero_add]

/-- After a rotate `Drag`, the target slot holds exactly the rotated card. -/
theorem rotate_update_get {mv : Model} {idx : Nat}
    (hds : mv.drag_state = DragState.MoveRotateHandle idx)
    (hv : idx < mv.cards.length) {d pos : Int × Int} {m2 : Model} {b2 : Bool}
    (hu : mv.update (Msg.Drag d pos) = some (m2, b2))
    (hi2 : idx < m2.cards.length) :
    m2.cards.get ⟨idx, hi2⟩ = rotatedCard (mv.cards.get ⟨idx, hv⟩) pos := by
  rw [update_drag_rotate_of_lt mv hds hv d pos] at hu
  obtain ⟨hm2, -⟩ := Prod.mk.injEq .. ▸ Option.some.inj hu
  subst hm2
  simp [List.get_eq_getElem, List.getElem_set]

/-- After a rotate `Drag`, every state component except the target card is
kept; in particular the drag state and the list length are unchanged. -/
theorem rotate_update_frame {mv : Model} {idx : Nat}
    (hds : mv.drag_state = DragState.MoveRotateHandle idx)
    (hv : idx < mv.cards.length) {d pos : Int × Int} {m2 : Model} {b2 : Bool}
    (hu : mv.update (Msg.Drag d pos) = some (m2, b2)) :
    m2.drag_state = mv.drag_state ∧ m2.cards.length = mv.cards.length ∧ b2 = true := by
  rw [update_drag_rotate_of_lt mv hds hv d pos] at hu
  obtain ⟨hm2, hb2⟩ := Prod.mk.injEq .. ▸ Option.some.inj hu
  subst hm2
  exact ⟨rfl, by simp, hb2.symm⟩

/-- C7: rotate-drag is deterministic, not accumulating: a second `Drag` with
the same absolute cursor position reproduces exactly the state of the first
(whatever its delta), and the rotation it assigns does not depend on the
card's prior rotation value. -/
theorem c7_rotate_deterministic {m : Model} {idx : Nat}
    (hds : m.drag_state = DragState.MoveRotateHandle idx)
    (h : idx < m.cards.length) {d1 pos : Int × Int} {m1 : Model} {b1 : Bool}
    (hu1 : m.update (Msg.Drag d1 pos) = some (m1, b1)) (d2 : Int × Int) :
    m1.update (Msg.Drag d2 pos) = some (m1, true) ∧
    ∀ (r : ℝ) {m2 : Model} {b2 : Bool},
      Model.update { m with cards := m.cards.set idx { m.cards.get ⟨idx, h⟩ with rotation := r } } (Msg.Drag d2 pos) = some (m2, b2) →
      ∀ (hi2 : idx < m2.cards.length) (hi1 : idx < m1.cards.length),
        (m2.cards.get ⟨idx, hi2⟩).rotation = (m1.cards.get ⟨idx, hi1⟩).rotation := by
  have hfr := rotate_update_frame hds h hu1
  have h1 : idx < m1.cards.length := by rw [hfr.2.1]; exact h
  have hds1 : m1.drag_state = DragState.MoveRotateHandle idx := by
    rw [hfr.1]; exact hds
  have hg1 : m1.cards.get ⟨idx, h1⟩ = rotatedCard (m.cards.get ⟨idx, h⟩) pos :=
    rotate_update_get hds h hu1 h1
  rw [update_drag_rotate_of_lt m hds h d1 pos] at hu1
  obtain ⟨hm1, -⟩ := Prod.mk.injEq .. ▸ Option.some.inj hu1
  subst hm1
  constructor
  · rw [update_drag_rotate_of_lt _ hds1 h1 d2 pos, hg1]
    have hfix : rotatedCard (rotatedCard (m.cards.get ⟨idx, h⟩) pos) pos =
        rotatedCard (m.cards.get ⟨idx, h⟩) pos := rfl
    rw [hfix]
    have hset : (m.cards.set idx (rotatedCard (m.cards.get ⟨idx, h⟩) pos)).set idx
        (rotatedCard (m.cards.get ⟨idx, h⟩) pos) =
        m.cards.set idx (rotatedCard (m.cards.get ⟨idx, h⟩) pos) := by
      rw [List.set_set]
    simp only [hset]
  · intro r m2 b2 hu2 hi2 hi1
    have hdsv : ({ m with
        cards := m.cards.set idx { m.cards.get ⟨idx, h⟩ with rotation := r } } :
      Model).drag_state = DragState.MoveRotateHandle idx := hds
    have hv : idx < ({ m with
        cards := m.cards.set idx { m.cards.get ⟨idx, h⟩ with rotation := r } } :
      Model).cards.length := by
      simpa using h
    have hg2 := rotate_update_get hdsv hv hu2 hi2
    have hgv : ({ m with
        cards := m.cards.set idx { m.cards.get ⟨idx, h⟩ with rotation := r } } :
      Model).cards.get ⟨idx, hv⟩ = { m.cards.get ⟨idx, h⟩ with rotation := r } := by
      simp [List.get_eq_getElem, List.getElem_set]
    have hR : ({ m with
        cards := m.cards.set idx (rotatedCard (m.cards.get ⟨idx, h⟩) pos) } :
      Model).cards.get ⟨idx, hi1⟩ = rotatedCard (m.cards.get ⟨idx, h⟩) pos := by
      simp [List.get_eq_getElem, List.getElem_set]
    rw [hg2, hgv, hR]
    rfl

/-- Witness for C7: two rotate drags with the same cursor on a concrete
card reproduce the same state. -/
theorem c7_rotate_deterministic_witness :
    (Model.mk [Card.mk "" (0, 0) (300, 300) 7 0]
      (DragState.MoveRotateHandle 0)).drag_state = DragState.MoveRotateHandle 0 ∧
    0 < (Model.mk [Card.mk "" (0, 0) (300, 300) 7 0]
      (DragState.MoveRotateHandle 0)).cards.length ∧
    ∃ m1, (Model.mk [Card.mk "" (0, 0) (300, 300) 7 0]
        (DragState.MoveRotateHandle 0)).update (Msg.Drag (0, 0) (450, 150)) =
      some (m1, true) ∧
      m1.update (Msg.Drag (5, 5) (450, 150)) = some (m1, true) := by
  have h : 0 < (Model.mk [Card.mk "" (0, 0) (300, 300) 7 0]
      (DragState.MoveRotateHandle 0)).cards.length := by decide
  have hu1 := update_drag_rotate_of_lt
    (Model.mk [Card.mk "" (0, 0) (300, 300) 7 0] (DragState.MoveRotateHandle 0))
    rfl h (0, 0) (450, 150)
  exact ⟨rfl, h, _, hu1, (c7_rotate_deterministic rfl h hu1 (5, 5)).1⟩

/-- C10: for a card with positive width and height, any rotate `Drag` puts
the resulting rotation in the bounded interval `(-π, 3π/2)`, independent of
the prior rotation: the assigned angle is an `atan2` value in `(-π, π]`
plus a handle offset in `(0, π/2)`. -/
theorem c10_rotation_bounded {m : Model} {idx : Nat}
    (hds : m.drag_state = DragState.MoveRotateHandle idx)
    (h : idx < m.cards.length)
    (hw : 0 < (m.cards.get ⟨idx, h⟩).size.1)
    (hh : 0 < (m.cards.get ⟨idx, h⟩).size.2)
    (delta pos : Int × Int) :
    ∃ m', m.update (Msg.Drag delta pos) = some (m', true) ∧
      ∀ hi : idx < m'.cards.length,
        -π < (m'.cards.get ⟨idx, hi⟩).rotation ∧
        (m'.cards.get ⟨idx, hi⟩).rotation < 3 * π / 2 := by
  refine ⟨_, update_drag_rotate_of_lt m hds h delta pos, ?_⟩
  intro hi
  have hget : (({ m with
        cards := m.cards.set idx (rotatedCard (m.cards.get ⟨idx, h⟩) pos) } :
      Model).cards.get ⟨idx, hi⟩) = rotatedCard (m.cards.get ⟨idx, h⟩) pos := by
    simp [List.get_eq_getElem, List.getElem_set]
  rw [hget]
  have hwR : (0 : ℝ) < ((m.cards.get ⟨idx, h⟩).size.1 : ℝ) := by exact_mod_cast hw
  have hhR : (0 : ℝ) < ((m.cards.get ⟨idx, h⟩).size.2 : ℝ) := by exact_mod_cast hh
  exact rotation_sum_bounds hhR hwR

/-- Witness for C10: a rotate drag on a 300×300 card with the cursor far
away still produces a rotation inside `(-π, 3π/2)`. -/
theorem c10_rotation_bounded_witness :
    (Model.mk [Card.mk "" (0, 0) (300, 300) 7 0]
      (DragState.MoveRotateHandle 0)).drag_state = DragState.MoveRotateHandle 0 ∧
    0 < (Model.mk [Card.mk "" (0, 0) (300, 300) 7 0]
      (DragState.MoveRotateHandle 0)).cards.length ∧
    ∃ m', (Model.mk [Card.mk "" (0, 0) (300, 300) 7 0]
        (DragState.MoveRotateHandle 0)).update (Msg.Drag (3, 4) (-17, 5)) =
      some (m', true) ∧
      ∀ hi : 0 < m'.cards.length,
        -π < (m'.cards.get ⟨0, hi⟩).rotation ∧
        (m'.cards.get ⟨0, hi⟩).rotation < 3 * π / 2 := by
  have h : 0 < (Model.mk [Card.mk "" (0, 0) (300, 300) 7 0]
      (DragState.MoveRotateHandle 0)).cards.length := by decide
  obtain ⟨m', hu, hb⟩ := c10_rotation_bounded
    (m := Model.mk [Card.mk "" (0, 0) (300, 300) 7 0] (DragState.MoveRotateHandle 0))
    rfl h (of_decide_eq_true rfl) (of_decide_eq_true rfl) (3, 4) (-17, 5)
  exact ⟨rfl, h, m', hu, hb⟩

end Refboard
